import Mathlib

/-!
Verification of the natural-language specification of `equiformer-pytorch`
(file `equiformer_pytorch/equiformer_pytorch.py`) against a shallow Lean
embedding of its code.

Modelling conventions:
* Tensors are embedded as (nested) `List`s along the axes the claims talk
  about; axes over which every relevant operation acts pointwise are
  abstracted into a slice type, and learned sub-networks (radial MLPs,
  per-degree weight matrices) are abstracted as arbitrary functions of the
  slice types, since every claim below is quantified over the parameter
  state.
* Degree-indexed feature dictionaries (Python `dict` keyed by the contiguous
  degrees `0..D`) are embedded as `List`s indexed positionally by degree.
* Helper functions of the repository that live in
  `equiformer_pytorch/utils.py` (not part of the given sources) are modelled
  from the spec and marked `Modelled from the spec:` in their doc comment.
* All computations are per batch element: every embedded operation acts
  independently on each batch row.
-/

namespace EquiformerPytorch

/-! ## Fiber algebra (`fiber_and`, source lines 31-47) -/

/-- Embedding of `fiber_and` (source lines 31-47): enumerate `fiber_in` as
`(degree, dim)` pairs and keep, for each degree that is also a degree of
`fiber_out` (i.e. an index below `len(fiber_out)`), the triple
`(degree, dim, fiber_out[degree])`. -/
def fiber_and (fiber_in fiber_out : List ℕ) : List (ℕ × ℕ × ℕ) :=
  fiber_in.enum.filterMap fun p =>
    match fiber_out[p.1]? with
    | some dimOut => some (p.1, p.2, dimOut)
    | none => none

lemma fiber_and_aux (fiber_out : List ℕ) :
    ∀ (k : ℕ) (fiber_in : List ℕ),
      (fiber_in.enumFrom k).filterMap (fun p =>
        match fiber_out[p.1]? with
        | some dimOut => some (p.1, p.2, dimOut)
        | none => none)
      = ((fiber_in.zip (fiber_out.drop k)).enumFrom k).map
          (fun p => (p.1, p.2.1, p.2.2)) := by
  intro k fiber_in
  induction fiber_in generalizing k with
  | nil => simp [List.enumFrom]
  | cons a t ih =>
    by_cases h : k < fiber_out.length
    · rw [List.drop_eq_getElem_cons h]
      simp only [List.enumFrom, List.zip_cons_cons, List.filterMap_cons,
        List.map_cons]
      rw [List.getElem?_eq_getElem h]
      simp only [ih (k + 1)]
      rfl
    · have hnone : fiber_out[k]? = none := by
        rw [List.getElem?_eq_none]
        omega
      have hdrop : fiber_out.drop k = [] := by
        apply List.drop_eq_nil_of_le
        omega
      have hdrop' : fiber_out.drop (k + 1) = [] := by
        apply List.drop_eq_nil_of_le
        omega
      simp only [List.enumFrom, List.filterMap_cons, hnone, hdrop,
        List.zip_nil_right, List.map_nil]
      rw [ih (k + 1)]
      simp [hdrop']

/-- claim C7: `fiber_and` returns exactly the triples
`(degree, fiber_in[degree], fiber_out[degree])` for every degree present in
both fibers, in ascending degree order, silently dropping every degree
present in only one of the two fibers. -/
theorem fiber_and_exactly_common_degrees (fiber_in fiber_out : List ℕ) :
    fiber_and fiber_in fiber_out
      = (List.range (min fiber_in.length fiber_out.length)).map
          (fun d => (d, fiber_in.getD d 0, fiber_out.getD d 0)) := by
  have h := fiber_and_aux fiber_out 0 fiber_in
  simp only [List.drop_zero] at h
  rw [fiber_and, List.enum, h]
  apply List.ext_getElem
  · simp [List.enumFrom_length, List.length_zip]
  · intro i h1 h2
    simp only [List.length_map, List.enumFrom_length, List.length_zip] at h1
    simp only [List.getElem_map, List.getElem_enumFrom, List.getElem_zip,
      List.getElem_range]
    have hi1 : i < fiber_in.length := lt_of_lt_of_le h1 (min_le_left _ _)
    have hi2 : i < fiber_out.length := lt_of_lt_of_le h1 (min_le_right _ _)
    rw [List.getD_eq_getElem _ _ hi1, List.getD_eq_getElem _ _ hi2]
    simp

/-! ## Gate (source lines 123-155) -/

/-- Embedding of `Gate.__init__` (source lines 124-138): `type0_dim` is
`fiber[0]`, `dim_gate` is `sum(fiber[1:])`; the constructor asserts
`type0_dim > dim_gate` and stores the split sizes
`[*fiber[1:], type0_dim - dim_gate]`.  An empty fiber raises (index error)
before the assert; a failed assert raises before any forward computation.
The returned value is the stored `type0_dim_split`. -/
def Gate.init (fiber : List ℕ) : Except String (List ℕ) :=
  match fiber with
  | [] => .error "tuple index out of range"
  | type0_dim :: rest =>
    let dim_gate := rest.sum
    if type0_dim > dim_gate then
      .ok (rest ++ [type0_dim - dim_gate])
    else
      .error "sum of channels from rest of the degrees must be less than the channels in type 0, as they would be used up for gating and subtracted out"

/-- claim C4: constructing a `Gate` succeeds exactly when
`fiber[0] > sum(fiber[1:])`; when `fiber[0] <= sum(fiber[1:])` construction
fails at construction time (the check is in `__init__`, before any forward
computation). -/
theorem gate_init_ok_iff (type0_dim : ℕ) (rest : List ℕ) :
    (Gate.init (type0_dim :: rest)).isOk = true ↔ rest.sum < type0_dim := by
  by_cases h : rest.sum < type0_dim
  · simp only [Gate.init, gt_iff_lt, if_pos h]
    simpa [Except.isOk, Except.toBool] using h
  · simp only [Gate.init, gt_iff_lt, if_neg h]
    simp [Except.isOk, Except.toBool, h]

/-! ## Chunking helpers (`fast_split`, `safe_cat` from `equiformer_pytorch/utils.py`) -/

/-- Modelled from the spec: `safe_cat` from `equiformer_pytorch.utils` (not in
the given sources) concatenates a new chunk onto an accumulator along the
chunked dimension, treating a missing (`None`) accumulator as empty. -/
def safe_cat {α : Type} (acc : Option (List α)) (el : List α) : Option (List α) :=
  match acc with
  | none => some el
  | some a => some (a ++ el)

/-- Modelled from the spec: the chunk sizes used by `fast_split` from
`equiformer_pytorch.utils` (not in the given sources): the sequence axis of
length `len` is split into `splits` contiguous pieces (clamped to at least 1
and at most `len`), balanced so that their concatenation restores the
original order and length. -/
def chunkSizes (len splits : ℕ) : List ℕ :=
  let s := min len (max splits 1)
  List.replicate (len % s) (len / s + 1) ++ List.replicate (s - len % s) (len / s)

/-- Split a list into consecutive chunks of the given sizes. -/
def splitBySizes {α : Type} : List α → List ℕ → List (List α)
  | _, [] => []
  | l, k :: ks => l.take k :: splitBySizes (l.drop k) ks

/-- Modelled from the spec: `fast_split` from `equiformer_pytorch.utils`
(not in the given sources) splits a tensor along the sequence dimension into
`splits` contiguous chunks whose concatenation is the original tensor. -/
def fast_split {α : Type} (l : List α) (splits : ℕ) : List (List α) :=
  splitBySizes l (chunkSizes l.length splits)

lemma chunkSizes_sum (len splits : ℕ) : (chunkSizes len splits).sum = len := by
  rcases Nat.eq_zero_or_pos len with h0 | hpos
  · subst h0
    simp [chunkSizes]
  · have hs : 0 < min len (max splits 1) := by
      have h1 : 1 ≤ len := hpos
      have h2 : 1 ≤ max splits 1 := le_max_right _ _
      omega
    set s := min len (max splits 1) with hsdef
    have hr : len % s < s := Nat.mod_lt len hs
    simp only [chunkSizes, ← hsdef, List.sum_append, List.sum_replicate,
      smul_eq_mul]
    have h3 := Nat.div_add_mod len s
    have e1 : (s - len % s) * (len / s) = s * (len / s) - len % s * (len / s) :=
      Nat.sub_mul _ _ _
    have e2 : len % s * (len / s) ≤ s * (len / s) :=
      Nat.mul_le_mul_right _ (le_of_lt hr)
    rw [e1, Nat.mul_add, Nat.mul_one]
    omega

lemma safe_cat_foldl_some {α : Type} :
    ∀ (L : List (List α)) (a : List α),
      L.foldl safe_cat (some a) = some (a ++ L.flatten) := by
  intro L
  induction L with
  | nil => simp
  | cons c L ih =>
    intro a
    simp only [List.foldl_cons, safe_cat, List.flatten_cons, ih (a ++ c),
      List.append_assoc]

lemma foldl_safe_cat_map {α β : Type} (g : α → List β) (L : List α) :
    L.foldl (fun acc t => safe_cat acc (g t)) none
      = (L.map g).foldl safe_cat none :=
  (List.foldl_map g safe_cat L none).symm

lemma safe_cat_foldl_none {α : Type} (L : List (List α)) :
    (L.foldl safe_cat none).getD [] = L.flatten := by
  cases L with
  | nil => rfl
  | cons c L =>
    simp only [List.foldl_cons, List.flatten_cons]
    show (L.foldl safe_cat (some c)).getD [] = _
    rw [safe_cat_foldl_some L c]
    rfl

/-! ## Convolution layer (source lines 157-248)

The node axis (`dim = 1`, over which `Conv.forward` chunks) is embedded as a
`List`; every per-node slice type is abstract, because `PairwiseConv`
(radial MLP contracted with the basis, source lines 250-316) acts pointwise
along the node axis and is quantified over in all claims about `Conv`. -/

section Conv

variable {R EdS B K X O Xin : Type}

/-- Embedding of the per-degree-pair chunk computation of `Conv.forward`
(source lines 229-231): `kernel = kernel_fn(edge_features, basis)` is the
pointwise (along the node axis) application of `PairwiseConv`, and
`chunk = einsum('... o i, ... i c -> ... o c', kernel, x_chunk)` is the
pointwise contraction against the gathered input chunk. -/
def convChunk (kf : E → B → K) (ein : K → X → O)
    (ec : List E) (bc : List B) (xc : List X) : List O :=
  List.zipWith ein (List.zipWith kf ec bc) xc

/-- Embedding of the chunked loop of `Conv.forward` for one
`(degree_in, degree_out)` pair (source lines 220-232): split the gathered
input, the edge features and the basis into `splits` chunks along the node
axis, process each chunk, and concatenate with `safe_cat`.  (The source
splits the whole basis dictionary once, outside the degree loops, at lines
203-205, and `kernel_fn` reads its own degree pair's entry from each chunk
dictionary at line 302; since `fast_split` chunks deterministically by
length, this is the same as splitting the relevant basis entry per degree
pair, as done here.) -/
def convPair (kf : E → B → K) (ein : K → X → O)
    (xs : List X) (es : List E) (bs : List B) (splits : ℕ) : List O :=
  let split_x := fast_split xs splits
  let split_e := fast_split es splits
  let split_b := fast_split bs splits
  ((split_x.zip (split_e.zip split_b)).foldl
      (fun acc t => safe_cat acc (convChunk kf ein t.2.1 t.2.2 t.1))
      none).getD []

lemma chunked_join_eq (kf : E → B → K) (ein : K → X → O) :
    ∀ (ks : List ℕ) (xs : List X) (es : List E) (bs : List B),
      es.length = xs.length → bs.length = xs.length →
      (((splitBySizes xs ks).zip
          ((splitBySizes es ks).zip (splitBySizes bs ks))).map
        (fun t => convChunk kf ein t.2.1 t.2.2 t.1)).flatten
      = (convChunk kf ein es bs xs).take ks.sum := by
  intro ks
  induction ks with
  | nil => intro xs es bs _ _; simp [splitBySizes]
  | cons k ks ih =>
    intro xs es bs hes hbs
    have hes' : (es.drop k).length = (xs.drop k).length := by
      simp [List.length_drop, hes]
    have hbs' : (bs.drop k).length = (xs.drop k).length := by
      simp [List.length_drop, hbs]
    simp only [splitBySizes, List.zip_cons_cons, List.map_cons,
      List.flatten_cons, ih (xs.drop k) (es.drop k) (bs.drop k) hes' hbs',
      List.sum_cons]
    have htake : convChunk kf ein (es.take k) (bs.take k) (xs.take k)
        = (convChunk kf ein es bs xs).take k := by
      simp [convChunk, List.take_zipWith]
    have hdrop : convChunk kf ein (es.drop k) (bs.drop k) (xs.drop k)
        = (convChunk kf ein es bs xs).drop k := by
      simp [convChunk, List.drop_zipWith]
    rw [htake, hdrop, ← List.take_add]

/-- Chunk invariance at the heart of claim C1: for equal-length inputs the
chunked computation of one `(degree_in, degree_out)` pair equals the
pointwise unchunked computation, for every `splits` value. -/
lemma convPair_eq (kf : E → B → K) (ein : K → X → O)
    (xs : List X) (es : List E) (bs : List B) (splits : ℕ)
    (hes : es.length = xs.length) (hbs : bs.length = xs.length) :
    convPair kf ein xs es bs splits = convChunk kf ein es bs xs := by
  rw [convPair]
  show ((((fast_split xs splits).zip
      ((fast_split es splits).zip (fast_split bs splits))).foldl
      (fun acc t => safe_cat acc (convChunk kf ein t.2.1 t.2.2 t.1))
      none)).getD [] = _
  rw [fast_split, fast_split, fast_split, hes, hbs]
  rw [foldl_safe_cat_map (fun t => convChunk kf ein t.2.1 t.2.2 t.1)
      ((splitBySizes xs (chunkSizes xs.length splits)).zip
        ((splitBySizes es (chunkSizes xs.length splits)).zip
          (splitBySizes bs (chunkSizes xs.length splits))))]
  rw [safe_cat_foldl_none]
  rw [chunked_join_eq kf ein (chunkSizes xs.length splits) xs es bs hes hbs]
  rw [chunkSizes_sum]
  have hlen : (convChunk kf ein es bs xs).length = xs.length := by
    simp [convChunk, List.length_zipWith, hes, hbs]
  rw [← hlen, List.take_length]

/-- Modelled from the spec: `batched_index_select` from
`equiformer_pytorch.utils` (not in the given sources) gathers, for each
node, the features of its selected neighbors (`dim = 1`): row `i` of the
result is `rows[idx[i][j]]` for each `j`. -/
def batched_index_select [Inhabited α] (rows : List α) (idx : List (List ℕ)) :
    List (List α) :=
  idx.map (fun r => r.map (fun j => rows.getD j default))

/-- Embedding of the edge-feature construction of `Conv.forward` (source
line 221): `torch.cat((rel_dist, edges), dim = -1)` when edges exist, else
`rel_dist` alone, pointwise along the node axis (the concatenation along the
trailing feature axis is embedded as pairing). -/
def edge_features_of (rel_dist : List R) (edges : Option (List EdS)) :
    List (R × Option EdS) :=
  match edges with
  | some es => (rel_dist.zip es).map (fun p => (p.1, some p.2))
  | none => rel_dist.map (fun r => (r, none))

/-- Embedding of `Linear.forward` (source lines 83-89): one independent
weight per degree of `fiber_and(fiber_in, fiber_out)`, applied pointwise
along the node axis (`einsum('b n d m, d e -> b n e m', x, weight)` acts per
node). -/
def Linear.forward (fiber_in fiber_out : List ℕ) (weight : ℕ → Xin → O)
    (x : ℕ → List Xin) : List (List O) :=
  (fiber_and fiber_in fiber_out).map (fun t => (x t.1).map (weight t.1))

/-- Embedding of `residual_fn` (source lines 55-64) over degree-indexed
lists: each degree of `x` is kept, and the residual for that degree is added
when present. -/
def residual_fn [Add O] (x residual : List (List O)) : List (List O) :=
  x.mapIdx (fun degree t =>
    match residual[degree]? with
    | some r => List.zipWith (· + ·) t r
    | none => t)

/-- Embedding of the accumulation over input degrees in `Conv.forward`
(source lines 210-234): starting from `output = 0`, for each input degree
gather the neighbor features (line 217), run the chunked pairwise
convolution (lines 220-232) and add the result (`output + output_chunk`,
line 234; the initial scalar `0` broadcast is embedded by treating the first
summand as the accumulator start). -/
def convAccumulate [Add O] [Inhabited Xin]
    (fiber_in : List ℕ) (kernel_unary : ℕ → ℕ → E → B → K)
    (ein : K → List Xin → O) (inp : ℕ → List Xin)
    (neighbor_indices : List (List ℕ)) (es : List E) (basis : ℕ → ℕ → List B)
    (degree_out splits : ℕ) : List O :=
  ((List.range fiber_in.length).foldl
    (fun acc degree_in =>
      let x := batched_index_select (inp degree_in) neighbor_indices
      let output_chunk :=
        convPair (kernel_unary degree_in degree_out) ein x es
          (basis degree_in degree_out) splits
      match acc with
      | none => some output_chunk
      | some a => some (List.zipWith (· + ·) a output_chunk))
    none).getD []

/-- Embedding of `Conv.forward` (source lines 187-248): for every output
degree, accumulate the chunked pairwise convolutions over all input degrees,
then pool over the neighbor axis (line 237, `masked_mean` when a neighbor
mask exists, plain mean otherwise — both pointwise along the node axis), and
finally add the self-interaction `Linear` as a residual (lines 244-246).
The shape-level `view`/reshape steps (lines 218, 239-240) are absorbed into
the abstract slice types. -/
def Conv.forward [Add O] [Inhabited Xin]
    (fiber_in fiber_out : List ℕ)
    (kernel_unary : ℕ → ℕ → R × Option EdS → B → K)
    (ein : K → List Xin → O)
    (self_interact : ℕ → Xin → O)
    (masked_mean : O → List Bool → O)
    (mean : O → O)
    (pool self_interaction : Bool)
    (inp : ℕ → List Xin)
    (neighbor_indices : List (List ℕ))
    (neighbor_masks : Option (List (List Bool)))
    (edges : Option (List EdS))
    (rel_dist : List R)
    (basis : ℕ → ℕ → List B)
    (splits : ℕ) : List (List O) :=
  let es := edge_features_of rel_dist edges
  let outs := (List.range fiber_out.length).map (fun degree_out =>
    let output := convAccumulate fiber_in kernel_unary ein inp
      neighbor_indices es basis degree_out splits
    if pool then
      match neighbor_masks with
      | some ms => List.zipWith masked_mean output ms
      | none => output.map mean
    else output)
  if self_interaction then
    residual_fn outs (Linear.forward fiber_in fiber_out self_interact inp)
  else outs

lemma convAccumulate_splits_invariant [Add O] [Inhabited Xin]
    (fiber_in : List ℕ) (kernel_unary : ℕ → ℕ → E → B → K)
    (ein : K → List Xin → O) (inp : ℕ → List Xin)
    (neighbor_indices : List (List ℕ)) (es : List E) (basis : ℕ → ℕ → List B)
    (degree_out : ℕ) (s₁ s₂ : ℕ)
    (hes : es.length = neighbor_indices.length)
    (hb : ∀ di dout, (basis di dout).length = neighbor_indices.length) :
    convAccumulate fiber_in kernel_unary ein inp neighbor_indices es basis
      degree_out s₁
    = convAccumulate fiber_in kernel_unary ein inp neighbor_indices es basis
      degree_out s₂ := by
  have key : ∀ di s,
      convPair (kernel_unary di degree_out) ein
        (batched_index_select (inp di) neighbor_indices) es
        (basis di degree_out) s
      = convChunk (kernel_unary di degree_out) ein es (basis di degree_out)
          (batched_index_select (inp di) neighbor_indices) := by
    intro di s
    apply convPair_eq
    · simpa [batched_index_select] using hes
    · simpa [batched_index_select] using hb di degree_out
  simp only [convAccumulate, key]

/-- claim C1: the output of the `Conv` layer computed with `splits = s₁`
equals the output computed with `splits = s₂`, for any two positive splits
values and identical inputs of consistent node-axis lengths: chunking along
the sequence dimension is purely a memory optimization, equivalent (up to
the floating-point order of operations, which the exact arithmetic of the
embedding abstracts away) to the unchunked computation. -/
theorem conv_forward_splits_invariant [Add O] [Inhabited Xin]
    (fiber_in fiber_out : List ℕ)
    (kernel_unary : ℕ → ℕ → R × Option EdS → B → K)
    (ein : K → List Xin → O)
    (self_interact : ℕ → Xin → O)
    (masked_mean : O → List Bool → O)
    (mean : O → O)
    (pool self_interaction : Bool)
    (inp : ℕ → List Xin)
    (neighbor_indices : List (List ℕ))
    (neighbor_masks : Option (List (List Bool)))
    (edges : Option (List EdS))
    (rel_dist : List R)
    (basis : ℕ → ℕ → List B)
    (s₁ s₂ : ℕ)
    (h₁ : 1 ≤ s₁) (h₂ : 1 ≤ s₂)
    (hd : rel_dist.length = neighbor_indices.length)
    (he : ∀ es, edges = some es → es.length = neighbor_indices.length)
    (hb : ∀ di dout, (basis di dout).length = neighbor_indices.length) :
    Conv.forward fiber_in fiber_out kernel_unary ein self_interact
      masked_mean mean pool self_interaction inp neighbor_indices
      neighbor_masks edges rel_dist basis s₁
    = Conv.forward fiber_in fiber_out kernel_unary ein self_interact
      masked_mean mean pool self_interaction inp neighbor_indices
      neighbor_masks edges rel_dist basis s₂ := by
  have hef : (edge_features_of rel_dist edges).length
      = neighbor_indices.length := by
    cases edges with
    | none => simpa [edge_features_of] using hd
    | some es =>
      simp [edge_features_of, List.length_zip, hd, he es rfl]
  simp only [Conv.forward,
    convAccumulate_splits_invariant fiber_in kernel_unary ein inp
      neighbor_indices _ basis _ s₁ s₂ hef hb]

/-- Concrete kernel function for the C1 witness. -/
def wKernel : ℕ → ℕ → ℚ × Option Unit → ℚ → ℚ := fun _ _ e b => e.1 * b

/-- Concrete contraction for the C1 witness. -/
def wEin : ℚ → List ℚ → ℚ := fun k xs => k * xs.sum

/-- Concrete self-interaction weight for the C1 witness. -/
def wSelfInteract : ℕ → ℚ → ℚ := fun _ x => x + 1

/-- Concrete masked mean for the C1 witness. -/
def wMaskedMean : ℚ → List Bool → ℚ := fun o _ => o

/-- Concrete input features for the C1 witness. -/
def wInp : ℕ → List ℚ := fun _ => [1, 2]

/-- Concrete basis for the C1 witness. -/
def wBasis : ℕ → ℕ → List ℚ := fun _ _ => [5, 6]

/-- Witness for claim C1: a concrete evaluation in which the `Conv` layer
with `splits = 1` and `splits = 4` agree. -/
theorem conv_forward_splits_invariant_witness :
    Conv.forward [2] [3, 4] wKernel wEin wSelfInteract wMaskedMean id
      true true wInp [[1], [0]] none none [3, 4] wBasis 1
    = Conv.forward [2] [3, 4] wKernel wEin wSelfInteract wMaskedMean id
      true true wInp [[1], [0]] none none [3, 4] wBasis 4 :=
  conv_forward_splits_invariant [2] [3, 4] wKernel wEin wSelfInteract
    wMaskedMean id true true wInp [[1], [0]] none none [3, 4] wBasis 1 4
    (by decide) (by decide) rfl (fun es h => by cases h) (fun di dout => rfl)

end Conv

/-! ## Degree-wise Norm (source lines 91-121)

`Norm.forward` processes each degree independently (one loop iteration per
degree, no interaction across degrees), and acts pointwise over the batch
and node axes; the embedding below is the per-degree, per-(batch, node)
computation on a `[channels, order]` slice, with `C` channels and `M` order
components. -/

namespace Norm

/-- Embedding of `t.norm(dim = -1)` (source line 116): the Euclidean norm
over the order axis, per channel. -/
noncomputable def l2normed {C M : ℕ} (t : Fin C → Fin M → ℝ) (c : Fin C) : ℝ :=
  Real.sqrt (∑ m, (t c m) ^ 2)

/-- Embedding of `l2normed.norm(dim = -2) * (dim ** -0.5)` (source line
117): the root-mean-square over the channel axis, scaled by
`channels ^ (-1/2)`. -/
noncomputable def rms {C M : ℕ} (t : Fin C → Fin M → ℝ) : ℝ :=
  Real.sqrt (∑ c, (l2normed t c) ^ 2) * (Real.sqrt C)⁻¹

/-- Embedding of one degree of `Norm.forward` (source lines 110-121):
`output[degree] = t / rms.clamp(min = eps) * scale`; `clamp(min = eps)` is
`max · eps`, and the learned per-channel scale multiplies the result. -/
noncomputable def forwardDeg {C M : ℕ} (eps : ℝ) (scale : Fin C → ℝ)
    (t : Fin C → Fin M → ℝ) : Fin C → Fin M → ℝ :=
  fun c m => t c m / max (rms t) eps * scale c

lemma l2normed_smul {C M : ℕ} (t : Fin C → Fin M → ℝ) (k : ℝ) (hk : 0 ≤ k)
    (c : Fin C) : l2normed (fun i m => k * t i m) c = k * l2normed t c := by
  simp only [l2normed, mul_pow, ← Finset.mul_sum]
  rw [Real.sqrt_mul (by positivity), Real.sqrt_sq hk]

lemma rms_smul {C M : ℕ} (t : Fin C → Fin M → ℝ) (k : ℝ) (hk : 0 ≤ k) :
    rms (fun i m => k * t i m) = k * rms t := by
  simp only [rms]
  have h : ∀ c, l2normed (fun i m => k * t i m) c = k * l2normed t c :=
    l2normed_smul t k hk
  simp only [h, mul_pow, ← Finset.mul_sum]
  rw [Real.sqrt_mul (by positivity), Real.sqrt_sq hk, mul_assoc]

end Norm

/-- Counterexample to claim C5 as stated: with a single degree-0 channel
(`C = M = 1`), `eps = 10⁻¹²` (the default), unit scale, input tensor
constantly `10⁻¹³` and positive constant `c = 2`, RMSNorm of the scaled
input differs from RMSNorm of the unscaled input: the `eps` clamp floor
(source line 119) breaks exact scale invariance for inputs whose RMS lies
below `eps`. -/
theorem norm_scale_invariance_counterexample :
    Norm.forwardDeg (C := 1) (M := 1) ((10 : ℝ) ^ (12 : ℕ))⁻¹ (fun _ => 1)
      (fun _ _ => 2 * ((10 : ℝ) ^ (13 : ℕ))⁻¹) 0 0
    ≠ Norm.forwardDeg (C := 1) (M := 1) ((10 : ℝ) ^ (12 : ℕ))⁻¹ (fun _ => 1)
      (fun _ _ => ((10 : ℝ) ^ (13 : ℕ))⁻¹) 0 0 := by
  have hx : (0 : ℝ) ≤ ((10 : ℝ) ^ (13 : ℕ))⁻¹ := by positivity
  have hrms1 : Norm.rms (C := 1) (M := 1)
      (fun _ _ => ((10 : ℝ) ^ (13 : ℕ))⁻¹) = ((10 : ℝ) ^ (13 : ℕ))⁻¹ := by
    simp only [Norm.rms, Norm.l2normed, Fin.sum_univ_one]
    rw [Real.sqrt_sq hx, Real.sqrt_sq hx]
    norm_num
  have hrms2 : Norm.rms (C := 1) (M := 1)
      (fun _ _ => 2 * ((10 : ℝ) ^ (13 : ℕ))⁻¹)
      = 2 * ((10 : ℝ) ^ (13 : ℕ))⁻¹ := by
    have hx2 : (0 : ℝ) ≤ 2 * ((10 : ℝ) ^ (13 : ℕ))⁻¹ := by positivity
    simp only [Norm.rms, Norm.l2normed, Fin.sum_univ_one]
    rw [Real.sqrt_sq hx2, Real.sqrt_sq hx2]
    norm_num
  simp only [Norm.forwardDeg, hrms1, hrms2]
  have hmax1 : max (((10 : ℝ) ^ (13 : ℕ))⁻¹) (((10 : ℝ) ^ (12 : ℕ))⁻¹)
      = ((10 : ℝ) ^ (12 : ℕ))⁻¹ := by
    rw [max_eq_right]
    norm_num
  have hmax2 : max (2 * ((10 : ℝ) ^ (13 : ℕ))⁻¹) (((10 : ℝ) ^ (12 : ℕ))⁻¹)
      = ((10 : ℝ) ^ (12 : ℕ))⁻¹ := by
    rw [max_eq_right]
    norm_num
  rw [hmax1, hmax2]
  norm_num

/-- claim C5 (amended): scaling a degree's input tensor by a positive
constant `k` before RMSNorm yields the same normalized output for that
degree, provided the RMS statistic of both the unscaled and the scaled
tensor is at least the clamp floor `eps` (so the `eps` clamp of source line
119 is inactive); the normalization then removes the overall magnitude. -/
theorem norm_scale_invariance_amended {C M : ℕ} (eps : ℝ)
    (scale : Fin C → ℝ) (t : Fin C → Fin M → ℝ) (k : ℝ) (hk : 0 < k)
    (h1 : eps ≤ Norm.rms t) (h2 : eps ≤ Norm.rms (fun i m => k * t i m)) :
    Norm.forwardDeg eps scale (fun i m => k * t i m)
      = Norm.forwardDeg eps scale t := by
  funext c m
  simp only [Norm.forwardDeg]
  rw [max_eq_left h1, max_eq_left h2, Norm.rms_smul t k hk.le,
    mul_div_mul_left _ _ (ne_of_gt hk)]

/-- Witness for the amended claim C5: a concrete input (constant 1, one
channel, one order component, default `eps = 10⁻¹²`, `k = 2`) on which both
RMS hypotheses hold and the amended theorem applies. -/
theorem norm_scale_invariance_amended_witness :
    Norm.forwardDeg (C := 1) (M := 1) ((10 : ℝ) ^ (12 : ℕ))⁻¹ (fun _ => 1)
      (fun _ _ => 2 * 1)
    = Norm.forwardDeg ((10 : ℝ) ^ (12 : ℕ))⁻¹ (fun _ => 1) (fun _ _ => 1) := by
  have hrms : Norm.rms (C := 1) (M := 1) (fun _ _ => (1 : ℝ)) = 1 := by
    simp only [Norm.rms, Norm.l2normed, Fin.sum_univ_one, one_pow,
      Real.sqrt_one]
    norm_num
  have hrms2 : Norm.rms (C := 1) (M := 1) (fun _ _ => 2 * (1 : ℝ)) = 2 := by
    have h2 : (0 : ℝ) ≤ 2 := by norm_num
    simp only [Norm.rms, Norm.l2normed, Fin.sum_univ_one]
    rw [Real.sqrt_sq (by norm_num), Real.sqrt_sq (by norm_num)]
    norm_num
  exact norm_scale_invariance_amended ((10 : ℝ) ^ (12 : ℕ))⁻¹ (fun _ => 1)
    (fun _ _ => 1) 2 (by norm_num) (by rw [hrms]; norm_num)
    (by rw [hrms2]; norm_num)

/-! ## Attention masking (source lines 394-436)

The softmax row over the neighbor axis for one (batch, head, node) is
embedded as a `List ℝ`; all operations of source lines 425-433 act
independently on each such row. -/

namespace Attention

/-- Embedding of `F.pad(neighbor_mask, (num_left_pad, 0), value = True)`
(source lines 428-429): the neighbor mask row is left-padded with `True` up
to the similarity row length. -/
def padMask (neighborMask : List Bool) (simLen : ℕ) : List Bool :=
  List.replicate (simLen - neighborMask.length) true ++ neighborMask

/-- Embedding of `sim.masked_fill(~mask, -torch.finfo(sim.dtype).max)`
(source line 430); `fillVal` stands for the representable minimum
`-finfo.max`. -/
def maskedFill (sim : List ℝ) (mask : List Bool) (fillVal : ℝ) : List ℝ :=
  List.zipWith (fun s b => if b then s else fillVal) sim mask

/-- Embedding of `sim.softmax(dim = -1)` (source line 432) on one row of the
neighbor axis. -/
noncomputable def softmax (l : List ℝ) : List ℝ :=
  l.map (fun x => Real.exp x / (l.map Real.exp).sum)

/-- Embedding of source lines 419-432 for one (batch, head, node) row when
`attend_self` is enabled and a neighbor mask is supplied: the self key is
prepended as an extra leading neighbor position (source lines 421-423), so
the similarity row is `selfSim :: nbrSims`; the padded mask and the fill are
applied and the softmax is taken over the row. -/
noncomputable def attnRow (selfSim : ℝ) (nbrSims : List ℝ)
    (mask : List Bool) (fillVal : ℝ) : List ℝ :=
  let sim := selfSim :: nbrSims
  let m := padMask mask sim.length
  softmax (maskedFill sim m fillVal)

end Attention

/-- claim C9: when `attend_self` is enabled and a neighbor validity mask is
supplied, the mask applied before the attention softmax is left-padded with
`True` over the prepended self position, so for every node — whatever the
mask row (including all-invalid rows coming from the padding mask) — the
self position is never masked out and receives strictly positive attention
weight. -/
theorem attention_self_position_never_masked (selfSim : ℝ)
    (nbrSims : List ℝ) (mask : List Bool) (fillVal : ℝ)
    (hm : mask.length = nbrSims.length) :
    (Attention.padMask mask (selfSim :: nbrSims).length).getD 0 false = true
    ∧ 0 < (Attention.attnRow selfSim nbrSims mask fillVal).getD 0 0 := by
  have hlen : (selfSim :: nbrSims).length - mask.length = 1 := by
    simp [hm]
  have hpad : Attention.padMask mask (selfSim :: nbrSims).length
      = true :: mask := by
    rw [Attention.padMask, hlen]
    rfl
  constructor
  · rw [hpad]
    rfl
  · show 0 < (Attention.softmax (Attention.maskedFill (selfSim :: nbrSims)
      (Attention.padMask mask (selfSim :: nbrSims).length) fillVal)).getD 0 0
    rw [hpad]
    have hfill : Attention.maskedFill (selfSim :: nbrSims) (true :: mask)
        fillVal = selfSim :: Attention.maskedFill nbrSims mask fillVal := by
      simp [Attention.maskedFill]
    rw [hfill]
    show 0 < Real.exp selfSim /
      ((selfSim :: Attention.maskedFill nbrSims mask fillVal).map
        Real.exp).sum
    apply div_pos (Real.exp_pos selfSim)
    apply List.sum_pos
    · intro x hx
      rcases List.mem_map.mp hx with ⟨y, _, rfl⟩
      exact Real.exp_pos y
    · simp

/-- Witness for claim C9: a concrete row (one neighbor, marked invalid by
the mask) on which the self position stays unmasked and gets positive
attention weight. -/
theorem attention_self_position_never_masked_witness :
    (Attention.padMask [false] [(1 : ℝ), 2].length).getD 0 false = true
    ∧ 0 < (Attention.attnRow (1 : ℝ) [2] [false] (-1000)).getD 0 0 :=
  attention_self_position_never_masked 1 [2] [false] (-1000) rfl

/-! ## Equiformer model (source lines 440-685)

The forward pass is embedded per batch element (every tensor operation in
source lines 548-685 acts independently on each batch row).  The scalar
type `S` of distances is kept abstract with a linear order (so the
embedding stays executable), the coordinate type `V` abstract with a
subtraction, and the Euclidean norm `rel_pos.norm(dim = -1)` (source line
594) is an abstract function `normFn : V → S` — every claim below holds for
every such norm.  The learned trunk (conv_in, the attention/feed-forward
layers, the final norm; source lines 650-667) is embedded through its
degree bookkeeping: `Conv`, `Attention`, `FeedForward` and `Norm` all
produce degree-indexed maps whose keys are exactly `0..num_degrees-1` (the
hidden fiber `self.dim`), so the trunk output is the list over degrees
`0..num_degrees-1` of an abstract per-degree slice function. -/

section Equiformer

variable {S V EdS A RT F τ : Type}

/-- Embedding of `t.masked_select(exclude_self_mask).reshape(b, n, n - 1)`
(source lines 572-573, 581-592): row `i` of an `n x n` pairwise tensor
loses its diagonal position `i`. -/
def removeDiag {α : Type} (t : List (List α)) : List (List α) :=
  t.mapIdx (fun i row => row.eraseIdx i)

/-- Embedding of the pairwise index tensor (source lines 578, 581):
`repeat(arange(n), 'j -> b i j')` with the diagonal removed — row `i` is
`[0..n-1]` without its position `i`. -/
def selfExcludedIndices (n : ℕ) : List (List ℕ) :=
  removeDiag ((List.range n).map (fun _ => List.range n))

/-- Embedding of the pairwise relative positions (source lines 579, 582):
`rel_pos[i][j] = coors[i] - coors[j]`, diagonal removed. -/
def pairwiseRelPos [Sub V] (coors : List V) : List (List V) :=
  removeDiag (coors.map (fun ci => coors.map (fun cj => ci - cj)))

/-- Embedding of the pairwise padding mask (source lines 584-586):
`mask[i][j] = mask[i] and mask[j]`, diagonal removed. -/
def pairwiseMask (m : List Bool) : List (List Bool) :=
  removeDiag (m.map (fun mi => m.map (fun mj => mi && mj)))

/-- Modelled from the spec: stable insertion step of the top-k selection
(`torch.topk(..., largest = False)`, an external tensor-runtime primitive;
ties broken by stable ascending order of the underlying index).  Inserts a
`(value, position)` pair before the first strictly greater value. -/
def insertPair [LinearOrder S] (x : S × ℕ) : List (S × ℕ) → List (S × ℕ)
  | [] => [x]
  | y :: ys => if y.1 < x.1 then y :: insertPair x ys else x :: y :: ys

/-- Modelled from the spec: stable sort of `(value, position)` pairs by
ascending value. -/
def sortPairs [LinearOrder S] (l : List (S × ℕ)) : List (S × ℕ) :=
  l.foldr insertPair []

/-- Modelled from the spec: `modified_rel_dist.topk(total_neighbors,
dim = -1, largest = False)` (source line 626) on one row — the `k` smallest
values together with their positions, ties broken by stable ascending
position. -/
def topkSmallest [LinearOrder S] (vals : List S) (k : ℕ) :
    List S × List ℕ :=
  let pairs := vals.enum.map (fun p => (p.2, p.1))
  let sel := (sortPairs pairs).take k
  (sel.map (fun p => p.1), sel.map (fun p => p.2))

/-- Modelled from the spec: `batched_index_select(t, nearest_indices,
dim = 2)` (source lines 629-637) — gather, inside each row, the entries at
the selected positions. -/
def gatherRows {α : Type} [Inhabited α] (t : List (List α))
    (idx : List (List ℕ)) : List (List α) :=
  List.zipWith (fun row r => r.map (fun p => row.getD p default)) t idx

/-- Embedding of `neighbors = int(min(neighbors, n - 1))` (source line
619): the configured neighbor count (possibly `∞`, the default) clamped to
`n - 1`. -/
def totalNeighbors (numNeighbors : ℕ∞) (n : ℕ) : ℕ :=
  (min numNeighbors ((n - 1 : ℕ) : ℕ∞)).toNat

/-- Configuration of the `Equiformer` model (the constructor state read by
`forward`): hidden degree count `num_degrees`, `valid_radius`,
`num_neighbors` (`∞` by default, source line 453), whether edge features
are configured (`has_edges`, source line 498) and whether the output is
reduced (`reduce_dim_out`, source line 535). -/
structure Config (S : Type) where
  numDegrees : ℕ
  validRadius : S
  numNeighbors : ℕ∞
  hasEdges : Bool
  reduceDimOut : Bool

/-- The edge information produced by neighbor selection (source lines
626-645): selected neighbor indices, the validity mask, gathered relative
distances and positions, and gathered edge features. -/
structure NeighborData (S V EdS : Type) where
  neighborIndices : List (List ℕ)
  neighborMask : List (List Bool)
  neighborRelDist : List (List S)
  neighborRelPos : List (List V)
  edges : Option (List (List EdS))

/-- Embedding of the neighbor-selection stage of `Equiformer.forward`
(source lines 568-645): build the self-excluded pairwise tensors, compute
relative distances, apply the optional supplied neighbor mask by filling
masked distances with the representable maximum (lines 603-610; the
non-fatal `print` diagnostic of lines 606-608 has no effect on the result
and is omitted), force the valid radius to 0 when the configured neighbor
count is exactly 0 (lines 614-615), clamp the neighbor count to `n - 1`
and assert it positive (lines 619-624), select the nearest neighbors
(line 626), mark selected neighbors beyond the valid radius invalid
(line 627), gather (lines 629-637) and intersect with the padding mask
(lines 633-634). -/
def neighborSelect [LinearOrder S] [Zero S] [Inhabited S] [Sub V]
    [Inhabited V] [Inhabited EdS]
    (cfg : Config S) (normFn : V → S) (maxValue : S)
    (coors : List V) (mask : Option (List Bool))
    (edges0 : Option (List (List EdS)))
    (neighborMaskIn : Option (List (List Bool))) :
    Except String (NeighborData S V EdS) :=
  let n := coors.length
  let indices := selfExcludedIndices n
  let relPos := pairwiseRelPos coors
  let maskP := mask.map pairwiseMask
  let edges := edges0.map removeDiag
  let relDist := relPos.map (fun row => row.map normFn)
  let modified := match neighborMaskIn with
    | none => relDist
    | some nm =>
      List.zipWith
        (List.zipWith (fun (d : S) (keep : Bool) =>
          if keep then d else maxValue))
        relDist (removeDiag nm)
  let validRadius := if cfg.numNeighbors = 0 then 0 else cfg.validRadius
  let neighbors := totalNeighbors cfg.numNeighbors n
  let total_neighbors := neighbors
  if total_neighbors = 0 then
    .error "you must be fetching at least 1 neighbor"
  else
    let total_neighbors := min total_neighbors (n - 1)
    let sel := modified.map (fun row => topkSmallest row total_neighbors)
    let dist_values := sel.map (fun p => p.1)
    let nearest_indices := sel.map (fun p => p.2)
    let nbrMask := dist_values.map (fun row =>
      row.map (fun d => decide (d ≤ validRadius)))
    let neighbor_rel_dist := gatherRows relDist nearest_indices
    let neighbor_rel_pos := gatherRows relPos nearest_indices
    let neighbor_indices := gatherRows indices nearest_indices
    let nbrMask := match maskP with
      | none => nbrMask
      | some mp =>
        List.zipWith (List.zipWith (· && ·)) nbrMask
          (gatherRows mp nearest_indices)
    let edgesG := edges.map (fun e => gatherRows e nearest_indices)
    .ok ⟨neighbor_indices, nbrMask, neighbor_rel_dist, neighbor_rel_pos,
      edgesG⟩

/-- Embedding of the return stage of `Equiformer.forward` (source lines
679-685): `type0, type1 = x[0], x[1]` unconditionally extracts the degree-0
and degree-1 entries (a missing key raises), and the pair is returned (the
order-axis squeeze of line 683 is shape-level and absorbed in `τ`). -/
def returnStage {τ : Type} (x : List τ) : Except String (τ × τ) :=
  match x[0]?, x[1]? with
  | some type0, some type1 => .ok (type0, type1)
  | _, _ => .error "KeyError: 1"

/-- Embedding of `Equiformer.forward` (source lines 537-685).  The call
surface keeps every parameter of the source signature that the claims
mention, including `adj_mat` and `return_type`, which the source body never
reads.  The optional token and positional embedding lookups (lines 550-555)
are external embedding-table collaborators, configured off here, and the
input-shape assertions of lines 554 and 565-566 are shape-level checks on
the abstract `feats` and therefore outside the embedding.  After the
edge-configuration assert (line 557) and neighbor
selection, the trunk (conv_in at line 650, the residual attention and
feed-forward layers at lines 661-663, the final norm at line 667) produces
a feature map whose degree keys are exactly `0..num_degrees-1` — `Conv`
outputs one entry per degree of its output fiber (line 209), `Attention`
and `FeedForward` map the hidden fiber to itself, `residual_fn` keeps the
keys of its first argument, and `Norm` zips against the hidden fiber — so
it is embedded as the list over those degrees of an abstract per-degree
function `net` of the inputs.  The optional output reduction `ff_out`
(lines 671-673) maps each degree through a per-degree function and the
optional node pooling (lines 675-677) maps each degree through a
mask-dependent function; both preserve the degree keys.  Finally (lines
679-685) the degree-0 and degree-1 entries are unconditionally extracted
and returned (the trailing order-axis squeeze of line 683 is shape-level
and absorbed in the slice type `τ`). -/
def Equiformer.forward [LinearOrder S] [Zero S] [Inhabited S] [Sub V]
    [Inhabited V] [Inhabited EdS]
    (cfg : Config S) (normFn : V → S) (maxValue : S)
    (net : ℕ → F → NeighborData S V EdS → τ)
    (ffOut : ℕ → τ → τ)
    (poolNodes : Option (List Bool) → τ → τ)
    (feats : F) (coors : List V) (mask : Option (List Bool))
    (adjMat : Option A) (edges0 : Option (List (List EdS)))
    (returnType : Option RT) (returnPooled : Bool)
    (neighborMaskIn : Option (List (List Bool))) :
    Except String (τ × τ) :=
  if cfg.hasEdges && edges0.isNone then
    .error "edge embedding (num_edge_tokens and edge_dim) must be supplied if one were to train on edge types"
  else
    match neighborSelect cfg normFn maxValue coors mask edges0
        neighborMaskIn with
    | .error e => .error e
    | .ok sel =>
      let x := (List.range cfg.numDegrees).map (fun d => net d feats sel)
      let x := if cfg.reduceDimOut then x.mapIdx (fun d t => ffOut d t)
        else x
      let x := if returnPooled then x.map (poolNodes mask) else x
      returnStage x

/-- The neighbor indices selected by a forward call (empty when neighbor
selection aborts); a projection of `neighborSelect` used to state claims
about the selected indices. -/
def selectedNeighborIndices [LinearOrder S] [Zero S] [Inhabited S] [Sub V]
    [Inhabited V] [Inhabited EdS]
    (cfg : Config S) (normFn : V → S) (maxValue : S)
    (coors : List V) (mask : Option (List Bool))
    (edges0 : Option (List (List EdS)))
    (neighborMaskIn : Option (List (List Bool))) : List (List ℕ) :=
  match neighborSelect cfg normFn maxValue coors mask edges0
      neighborMaskIn with
  | .ok nd => nd.neighborIndices
  | .error _ => []

/-- Witness constants for the Equiformer claims: a 3-node integer geometry
with squared-distance norm. -/
def zNorm : ℤ → ℤ := fun v => v * v

/-- Witness trunk slice function. -/
def zNet : ℕ → Unit → NeighborData ℤ ℤ Unit → ℕ := fun d _ _ => d

/-- Witness output-reduction function. -/
def zFfOut : ℕ → ℕ → ℕ := fun _ t => t

/-- Witness node-pooling function. -/
def zPool : Option (List Bool) → ℕ → ℕ := fun _ t => t

/-- Witness configuration with unbounded neighbor count. -/
def zCfgTop : Config ℤ := ⟨2, 100, ⊤, false, false⟩

/-- Witness configuration with `num_neighbors = 0`. -/
def zCfgZero : Config ℤ := ⟨2, 100, 0, false, false⟩

lemma insertPair_perm [LinearOrder S] (x : S × ℕ) (l : List (S × ℕ)) :
    (insertPair x l).Perm (x :: l) := by
  induction l with
  | nil => exact List.Perm.refl _
  | cons y ys ih =>
    rw [insertPair]
    split
    · exact (ih.cons y).trans (List.Perm.swap x y ys)
    · exact List.Perm.refl _

lemma sortPairs_perm [LinearOrder S] (l : List (S × ℕ)) :
    (sortPairs l).Perm l := by
  induction l with
  | nil => exact List.Perm.refl _
  | cons y ys ih =>
    exact (insertPair_perm y (sortPairs ys)).trans (ih.cons y)

lemma topk_pos_lt [LinearOrder S] (vals : List S) (k p : ℕ)
    (hp : p ∈ (topkSmallest vals k).2) : p < vals.length := by
  simp only [topkSmallest] at hp
  rcases List.mem_map.mp hp with ⟨q, hq, rfl⟩
  have hq2 : q ∈ sortPairs (vals.enum.map (fun r => (r.2, r.1))) :=
    List.mem_of_mem_take hq
  have hq3 : q ∈ vals.enum.map (fun r => (r.2, r.1)) :=
    (sortPairs_perm _).subset hq2
  rcases List.mem_map.mp hq3 with ⟨r, hr, rfl⟩
  exact List.fst_lt_of_mem_enum hr

lemma mem_eraseIdx_range {n i j : ℕ}
    (h : j ∈ (List.range n).eraseIdx i) : j ≠ i := by
  rcases List.mem_iff_getElem.mp h with ⟨k, hk, hget⟩
  rw [List.getElem_eraseIdx] at hget
  split at hget
  · rw [List.getElem_range] at hget
    omega
  · rw [List.getElem_range] at hget
    rw [List.length_eraseIdx] at hk
    split at hk <;> omega

lemma removeDiag_length {α : Type} (t : List (List α)) :
    (removeDiag t).length = t.length := by
  simp [removeDiag]

lemma returnStage_isOk {τ : Type} (x : List τ) :
    (returnStage x).isOk = true ↔ 2 ≤ x.length := by
  match x with
  | [] => simp [returnStage, Except.isOk, Except.toBool]
  | [a] => simp [returnStage, Except.isOk, Except.toBool]
  | a :: b :: t =>
    simp [returnStage, Except.isOk, Except.toBool]

lemma selfExcludedIndices_getElem (n i : ℕ)
    (h : i < (selfExcludedIndices n).length) :
    (selfExcludedIndices n)[i] = (List.range n).eraseIdx i := by
  have h2 : i < ((List.range n).map (fun _ => List.range n)).length := by
    simpa [selfExcludedIndices, removeDiag_length] using h
  calc (selfExcludedIndices n)[i]
      = ((((List.range n).map (fun _ => List.range n))[i]).eraseIdx i) :=
        List.getElem_mapIdx
    _ = (List.range n).eraseIdx i := by rw [List.getElem_map]

lemma selfExcludedIndices_length (n : ℕ) :
    (selfExcludedIndices n).length = n := by
  simp [selfExcludedIndices, removeDiag_length]

lemma selfExcludedIndices_row_length (n i : ℕ) (h : i < n) :
    ((selfExcludedIndices n).getD i []).length = n - 1 := by
  have hlt : i < (selfExcludedIndices n).length := by
    rwa [selfExcludedIndices_length]
  rw [List.getD_eq_getElem _ _ hlt, selfExcludedIndices_getElem n i hlt,
    List.length_eraseIdx]
  simp [h]

/-- Central step of claim C3: whatever the per-row distance values, the
gathered neighbor indices of node `i` come from the self-excluded candidate
row of `i` and therefore never contain `i` itself. -/
lemma gather_topk_excludes_self [LinearOrder S] (n : ℕ)
    (modified : List (List S)) (k i j : ℕ)
    (hmod : ∀ (i' : ℕ) (h : i' < modified.length),
      (modified[i']).length ≤ n - 1)
    (hj : j ∈ (gatherRows (selfExcludedIndices n)
      ((modified.map (fun row => topkSmallest row k)).map
        (fun p => p.2))).getD i []) :
    j ≠ i := by
  set t := selfExcludedIndices n with ht
  set idx := (modified.map (fun row => topkSmallest row k)).map
    (fun p => p.2) with hidx
  rcases Nat.lt_or_ge i (gatherRows t idx).length with hi | hi
  · rw [List.getD_eq_getElem _ _ hi] at hj
    simp only [gatherRows] at hj hi
    rw [List.getElem_zipWith] at hj
    have hit : i < t.length := by
      rw [List.length_zipWith] at hi
      omega
    have hii : i < idx.length := by
      rw [List.length_zipWith] at hi
      omega
    have himod : i < modified.length := by
      rw [hidx] at hii
      simpa using hii
    obtain ⟨p, hp, hpj⟩ := List.mem_map.mp hj
    have hidxel : idx[i] = (topkSmallest (modified[i]) k).2 := by
      simp only [hidx, List.getElem_map]
    rw [hidxel] at hp
    have hplt : p < (modified[i]).length := topk_pos_lt _ k p hp
    have hin : i < n := by
      rw [ht, selfExcludedIndices_length] at hit
      exact hit
    have htel : t[i] = (List.range n).eraseIdx i :=
      selfExcludedIndices_getElem n i hit
    have htlen : (t[i]).length = n - 1 := by
      rw [htel, List.length_eraseIdx]
      simp [hin]
    have hplt2 : p < (t[i]).length := by
      rw [htlen]
      exact lt_of_lt_of_le hplt (hmod i himod)
    rw [List.getD_eq_getElem _ _ hplt2] at hpj
    have hmem : (t[i])[p] ∈ (List.range n).eraseIdx i := by
      rw [← htel]
      exact List.getElem_mem hplt2
    rw [← hpj]
    exact mem_eraseIdx_range hmem
  · rw [List.getD_eq_default _ _ hi] at hj
    simp at hj

lemma pairwiseRelPos_row_length {V : Type} [Sub V] (coors : List V) (i : ℕ)
    (h : i < (pairwiseRelPos coors).length) :
    ((pairwiseRelPos coors)[i]).length ≤ coors.length - 1 := by
  have hn : i < coors.length := by
    simpa [pairwiseRelPos, removeDiag_length] using h
  have h2 : i < (coors.map (fun ci => coors.map (fun cj => ci - cj))).length := by
    simpa using hn
  have he : (pairwiseRelPos coors)[i]
      = ((coors.map (fun ci => coors.map (fun cj => ci - cj)))[i]).eraseIdx i :=
    List.getElem_mapIdx
  rw [he, List.getElem_map, List.length_eraseIdx]
  simp [hn]

/-- claim C3: for every forward call, every batch element, every node `i`
and every index `j` selected into node `i`'s `neighbor_indices`, `j` is
never `i` itself — the diagonal is removed from all pairwise tensors before
top-k selection (source lines 570-582), leaving exactly `n - 1` candidate
neighbors per node, among which the selection of lines 626-631 picks. -/
theorem neighbor_indices_exclude_self [LinearOrder S] [Zero S]
    [Inhabited S] [Sub V] [Inhabited V] [Inhabited EdS]
    (cfg : Config S) (normFn : V → S) (maxValue : S)
    (coors : List V) (mask : Option (List Bool))
    (edges0 : Option (List (List EdS)))
    (neighborMaskIn : Option (List (List Bool))) (i j : ℕ)
    (hj : j ∈ (selectedNeighborIndices cfg normFn maxValue coors mask
      edges0 neighborMaskIn).getD i []) :
    j ≠ i ∧ (i < coors.length →
      ((selfExcludedIndices coors.length).getD i []).length
        = coors.length - 1) := by
  refine ⟨?_, fun hin => selfExcludedIndices_row_length coors.length i hin⟩
  simp only [selectedNeighborIndices] at hj
  cases hres : neighborSelect cfg normFn maxValue coors mask edges0
      neighborMaskIn with
  | error e =>
    rw [hres] at hj
    simp at hj
  | ok nd =>
    rw [hres] at hj
    cases neighborMaskIn with
    | none =>
      simp only [neighborSelect] at hres
      split at hres
      · exact absurd hres (by simp)
      · injection hres with h
        subst h
        dsimp only at hj
        refine gather_topk_excludes_self coors.length _ _ i j ?_ hj
        intro i' h
        rw [List.getElem_map]
        have h' : i' < (pairwiseRelPos coors).length := by
          simpa using h
        simpa using pairwiseRelPos_row_length coors i' h'
    | some nm =>
      simp only [neighborSelect] at hres
      split at hres
      · exact absurd hres (by simp)
      · injection hres with h
        subst h
        dsimp only at hj
        refine gather_topk_excludes_self coors.length _ _ i j ?_ hj
        intro i' h
        rw [List.getElem_zipWith, List.length_zipWith]
        have h1 : i' < ((pairwiseRelPos coors).map
            (fun row => row.map normFn)).length := by
          rw [List.length_zipWith] at h
          omega
        have h2 : i' < (pairwiseRelPos coors).length := by
          simpa using h1
        have h3 := pairwiseRelPos_row_length coors i' h2
        have h4 : (((pairwiseRelPos coors).map
            (fun row => List.map normFn row))[i']).length
            ≤ coors.length - 1 := by
          rw [List.getElem_map]
          simpa using h3
        omega

/-- Witness for claim C3: in a concrete 3-node call, index 1 is selected as
a neighbor of node 0 and indeed differs from 0, and node 0 has exactly two
candidate neighbors. -/
theorem neighbor_indices_exclude_self_witness :
    (1 : ℕ) ≠ 0 ∧ (0 < 3 →
      ((selfExcludedIndices 3).getD 0 []).length = 3 - 1) :=
  neighbor_indices_exclude_self zCfgTop zNorm 1000000 [(0 : ℤ), 1, 2] none
    (none : Option (List (List Unit))) none 0 1 (by decide)

/-- claim C8: two `Equiformer.forward` calls on the same model that differ
only in the `adj_mat` argument and/or the `return_type` argument produce
identical outputs: both parameters are accepted by the call surface (source
lines 542, 544) but never read anywhere in the forward body (source lines
548-685). -/
theorem forward_ignores_adjmat_and_returntype [LinearOrder S] [Zero S]
    [Inhabited S] [Sub V] [Inhabited V] [Inhabited EdS]
    (cfg : Config S) (normFn : V → S) (maxValue : S)
    (net : ℕ → F → NeighborData S V EdS → τ) (ffOut : ℕ → τ → τ)
    (poolNodes : Option (List Bool) → τ → τ)
    (feats : F) (coors : List V) (mask : Option (List Bool))
    (adjMat adjMat' : Option A) (edges0 : Option (List (List EdS)))
    (returnType returnType' : Option RT) (returnPooled : Bool)
    (neighborMaskIn : Option (List (List Bool))) :
    Equiformer.forward cfg normFn maxValue net ffOut poolNodes feats coors
      mask adjMat edges0 returnType returnPooled neighborMaskIn
    = Equiformer.forward cfg normFn maxValue net ffOut poolNodes feats coors
      mask adjMat' edges0 returnType' returnPooled neighborMaskIn := rfl

/-- claim C6: a forward call in which the total number of neighbors to
fetch — the configured neighbor count clamped to `n - 1` (source line
619) — is zero fails synchronously with the precondition violation of
source line 622, before neighbor selection; no result is computed.  (The
only earlier check, the edge-configuration assert of line 557, is assumed
satisfied.) -/
theorem total_neighbors_zero_raises [LinearOrder S] [Zero S]
    [Inhabited S] [Sub V] [Inhabited V] [Inhabited EdS]
    (cfg : Config S) (normFn : V → S) (maxValue : S)
    (net : ℕ → F → NeighborData S V EdS → τ) (ffOut : ℕ → τ → τ)
    (poolNodes : Option (List Bool) → τ → τ)
    (feats : F) (coors : List V) (mask : Option (List Bool))
    (adjMat : Option A) (edges0 : Option (List (List EdS)))
    (returnType : Option RT) (returnPooled : Bool)
    (neighborMaskIn : Option (List (List Bool)))
    (htot : totalNeighbors cfg.numNeighbors coors.length = 0)
    (hedge : cfg.hasEdges = true → edges0.isSome = true) :
    Equiformer.forward cfg normFn maxValue net ffOut poolNodes feats coors
      mask adjMat edges0 returnType returnPooled neighborMaskIn
    = .error "you must be fetching at least 1 neighbor" := by
  have hcond : (cfg.hasEdges && edges0.isNone) = false := by
    cases hE : cfg.hasEdges with
    | false => rfl
    | true =>
      have h1 := hedge hE
      cases edges0 with
      | none => simp at h1
      | some es => simp
  have hsel : neighborSelect cfg normFn maxValue coors mask edges0
      neighborMaskIn = .error "you must be fetching at least 1 neighbor" := by
    simp [neighborSelect, htot]
  simp [Equiformer.forward, hcond, hsel]

/-- Witness for claim C6: with a single node (`n = 1`), the clamped
neighbor count `min(∞, n - 1)` is zero and the forward call aborts with
the at-least-one-neighbor precondition violation. -/
theorem total_neighbors_zero_raises_witness :
    Equiformer.forward zCfgTop zNorm 1000000 zNet zFfOut zPool () [(5 : ℤ)]
      none (none : Option Unit) none (none : Option Unit) false none
    = .error "you must be fetching at least 1 neighbor" :=
  total_neighbors_zero_raises zCfgTop zNorm 1000000 zNet zFfOut zPool ()
    [(5 : ℤ)] none none none none false none (by decide) (by simp [zCfgTop])

/-- claim C2 (divergence evaluation): a model configured with
`num_neighbors = 0` does force `valid_radius` to 0 (source lines 614-615),
but the immediately following clamp makes the total neighbor count 0 and
the assert of source line 622 aborts the call — the forward pass never
completes, so no neighbor mask marking only explicitly-adjacent neighbors
is ever produced (and `adj_mat` is never read at all). -/
theorem num_neighbors_zero_forward_raises :
    Equiformer.forward zCfgZero zNorm 1000000 zNet zFfOut zPool ()
      [(0 : ℤ), 1, 2] none (none : Option Unit) none (none : Option Unit)
      false none
    = .error "you must be fetching at least 1 neighbor" := rfl

/-- claim C10: `Equiformer.forward` unconditionally extracts both the
degree-0 and the degree-1 entries of the final feature map (source line
681); since the trunk produces exactly the degrees `0..num_degrees-1`, an
otherwise-valid forward call (edge assert satisfied, neighbor selection
succeeding) returns successfully exactly when `num_degrees >= 2` — with
`num_degrees = 1` (only degree 0 present) every such call fails at the
return stage. -/
theorem forward_ok_iff_two_degrees [LinearOrder S] [Zero S]
    [Inhabited S] [Sub V] [Inhabited V] [Inhabited EdS]
    (cfg : Config S) (normFn : V → S) (maxValue : S)
    (net : ℕ → F → NeighborData S V EdS → τ) (ffOut : ℕ → τ → τ)
    (poolNodes : Option (List Bool) → τ → τ)
    (feats : F) (coors : List V) (mask : Option (List Bool))
    (adjMat : Option A) (edges0 : Option (List (List EdS)))
    (returnType : Option RT) (returnPooled : Bool)
    (neighborMaskIn : Option (List (List Bool)))
    (hedge : cfg.hasEdges = true → edges0.isSome = true)
    (hsel : (neighborSelect cfg normFn maxValue coors mask edges0
      neighborMaskIn).isOk = true) :
    (Equiformer.forward cfg normFn maxValue net ffOut poolNodes feats coors
      mask adjMat edges0 returnType returnPooled neighborMaskIn).isOk = true
    ↔ 2 ≤ cfg.numDegrees := by
  have hcond : (cfg.hasEdges && edges0.isNone) = false := by
    cases hE : cfg.hasEdges with
    | false => rfl
    | true =>
      have h1 := hedge hE
      cases edges0 with
      | none => simp at h1
      | some es => simp
  obtain ⟨nd, hnd⟩ : ∃ nd, neighborSelect cfg normFn maxValue coors mask
      edges0 neighborMaskIn = .ok nd := by
    cases h : neighborSelect cfg normFn maxValue coors mask edges0
        neighborMaskIn with
    | error e =>
      rw [h] at hsel
      simp [Except.isOk, Except.toBool] at hsel
    | ok nd => exact ⟨nd, rfl⟩
  simp only [Equiformer.forward, hcond, Bool.false_eq_true, if_false, hnd]
  rw [returnStage_isOk]
  have hlen : ∀ (x : List τ), x.length = cfg.numDegrees →
      ((if returnPooled then
          (if cfg.reduceDimOut then x.mapIdx (fun d t => ffOut d t) else
            x).map (poolNodes mask)
        else
          if cfg.reduceDimOut then x.mapIdx (fun d t => ffOut d t) else
            x)).length = cfg.numDegrees := by
    intro x hx
    split <;> split <;> simp [hx]
  rw [hlen _ (by simp)]

/-- Witness for claim C10: a concrete 3-node call with `num_degrees = 2`
whose neighbor selection succeeds and whose forward pass returns
successfully. -/
theorem forward_ok_iff_two_degrees_witness :
    (Equiformer.forward zCfgTop zNorm 1000000 zNet zFfOut zPool ()
      [(0 : ℤ), 1, 2] none (none : Option Unit) none (none : Option Unit)
      false none).isOk = true :=
  (forward_ok_iff_two_degrees zCfgTop zNorm 1000000 zNet zFfOut zPool ()
    [(0 : ℤ), 1, 2] none none none none false none (by simp [zCfgTop])
    (by decide)).mpr (by decide)

end Equiformer

end EquiformerPytorch
